import Mathlib

/-!
Shallow embedding of the two-stage in-memory raft log storage
(`internal/raft/inmemory.go`): the `inMemory` struct and its operations.
All `uint64` arithmetic is made explicit over `Nat` (`% 2^64` exactly where
the Go code adds or subtracts unsigned integers), and runtime faults
(panics, out-of-range slice accesses) are modelled by an `Option` result,
`none` standing for the fatal branch.
-/

namespace InMem

/-- Size of the uint64 value space. -/
def W : Nat := 2 ^ 64

/-- Wrapping uint64 subtraction `a - b` (for operands below `W`). -/
def wsub (a b : Nat) : Nat := (a % W + (W - b % W)) % W

/-- Embedding of `pb.Entry` (only the fields `inmemory.go` reads). -/
structure Entry where
  index : Nat
  term : Nat
  deriving Repr, DecidableEq, Inhabited

/-- Embedding of `pb.Snapshot` (only the fields `inmemory.go` reads). -/
structure Snapshot where
  index : Nat
  term : Nat
  deriving Repr, DecidableEq, Inhabited

/-- Embedding of the `inMemory` struct. -/
structure InMemory where
  snapshot : Option Snapshot
  entries : List Entry
  markerIndex : Nat
  savedTo : Nat
  deriving Repr, DecidableEq

/-- Embedding of `pb.UpdateCommit` (only the fields `commitUpdate` reads). -/
structure UpdateCommit where
  stableLogTo : Nat
  stableLogTerm : Nat
  stableSnapshotTo : Nat
  deriving Repr, DecidableEq

/-- Go `newInMemory`: `markerIndex = lastIndex + 1`, `savedTo = lastIndex`. -/
def newInMemory (lastIndex : Nat) : InMemory :=
  { snapshot := none, entries := [], markerIndex := (lastIndex + 1) % W, savedTo := lastIndex }

/-- Go `checkMarkerIndex`; `false` is the panic branch. -/
def checkMarkerIndex (im : InMemory) : Bool :=
  match im.entries with
  | [] => true
  | e :: _ => e.index == im.markerIndex

/-- Runs the `checkMarkerIndex` assertion after a mutation; the panic is `none`. -/
def checked (im : InMemory) : Option InMemory :=
  if checkMarkerIndex im then some im else none

/-- Go `getEntries`: the two explicit panics and the implicit slice-bounds
panic of `im.entries[low-marker : high-marker]` are `none`. -/
def getEntries (im : InMemory) (low high : Nat) : Option (List Entry) :=
  if low > high || low < im.markerIndex then none
  else if high > (im.markerIndex + im.entries.length) % W then none
  else if wsub low im.markerIndex ≤ wsub high im.markerIndex ∧
      wsub high im.markerIndex ≤ im.entries.length then
    some ((im.entries.drop (wsub low im.markerIndex)).take
      (wsub high im.markerIndex - wsub low im.markerIndex))
  else none

/-- Go `getSnapshotIndex`. -/
def getSnapshotIndex (im : InMemory) : Nat × Bool :=
  match im.snapshot with
  | some s => (s.index, true)
  | none => (0, false)

/-- Go `getLastIndex`. -/
def getLastIndex (im : InMemory) : Nat × Bool :=
  match im.entries.getLast? with
  | some e => (e.index, true)
  | none => getSnapshotIndex im

/-- Go `getTerm`; `none` is the runtime fault of an out-of-range
`im.entries[index-im.markerIndex]` access. -/
def getTerm (im : InMemory) (index : Nat) : Option (Nat × Bool) :=
  if index < im.markerIndex then
    match im.snapshot with
    | some s => if s.index == index then some (s.term, true) else some (0, false)
    | none => some (0, false)
  else
    if (getLastIndex im).2 && decide (index ≤ (getLastIndex im).1) then
      match im.entries.get? (wsub index im.markerIndex) with
      | some e => some (e.term, true)
      | none => none
    else some (0, false)

/-- Go `savedLogTo`; `none` is the runtime fault of an out-of-range
`im.entries[index-im.markerIndex]` access in the term comparison. -/
def savedLogTo (im : InMemory) (index term : Nat) : Option InMemory :=
  if index < im.markerIndex then some im
  else if im.entries.length = 0 then some im
  else if index > (im.entries.getLastD default).index then some im
  else
    match im.entries.get? (wsub index im.markerIndex) with
    | none => none
    | some e => if term ≠ e.term then some im else some { im with savedTo := index }

/-- Go `savedSnapshotTo`: clears the snapshot on an exact index match;
a mismatch only logs a warning and leaves the state unchanged. -/
def savedSnapshotTo (im : InMemory) (index : Nat) : InMemory :=
  match im.snapshot with
  | some s => if s.index = index then { im with snapshot := none } else im
  | none => im

/-- Go `commitUpdate`: dispatches to `savedLogTo` / `savedSnapshotTo` when the
respective field is positive. -/
def commitUpdate (im : InMemory) (cu : UpdateCommit) : Option InMemory :=
  match (if cu.stableLogTo > 0 then savedLogTo im cu.stableLogTo cu.stableLogTerm else some im) with
  | none => none
  | some im1 => some (if cu.stableSnapshotTo > 0 then savedSnapshotTo im1 cu.stableSnapshotTo else im1)

/-- Go `entriesToSave`: the suffix of the buffer past `savedTo`, empty when
`savedTo+1 - markerIndex` (wrapping uint64 arithmetic) exceeds the length. -/
def entriesToSave (im : InMemory) : List Entry :=
  if wsub ((im.savedTo + 1) % W) im.markerIndex > im.entries.length then []
  else im.entries.drop (wsub ((im.savedTo + 1) % W) im.markerIndex)

/-- Go `appliedLogTo`; `none` stands for the slice-bounds fault of
`im.entries[newMarkerIndex-im.markerIndex:]` or a failing `checkMarkerIndex`. -/
def appliedLogTo (im : InMemory) (index : Nat) : Option InMemory :=
  if index < im.markerIndex then some im
  else if im.entries.length = 0 then some im
  else if index > (im.entries.getLastD default).index then some im
  else if wsub index im.markerIndex ≤ im.entries.length then
    checked { im with entries := im.entries.drop (wsub index im.markerIndex),
                      markerIndex := index }
  else none

/-- Go `resizeEntrySlice` only changes slice capacity, never contents, so it
is the identity at the value level. -/
def resizeEntrySlice (im : InMemory) : InMemory := im

/-- Adjacent entries ascend by exactly one throughout the sequence. -/
def spanContiguous : List Entry → Bool
  | [] => true
  | [_] => true
  | a :: b :: rest => (b.index == a.index + 1) && spanContiguous (b :: rest)

/-- Modelled from the spec: `checkEntriesToAppend` lives outside this file;
the spec requires that in the reconciled sequence (existing entries followed
by the entries to append) every adjacent pair of entries has indices
ascending by exactly one, and that a violation is fatal. -/
def checkEntriesToAppend (existing toAppend : List Entry) : Bool :=
  spanContiguous (existing ++ toAppend)

/-- Modelled from the spec: `newEntrySlice` lives outside this file; it copies
the input entries into buffer-owned storage, so its value is the input
sequence itself. -/
def newEntrySlice (ents : List Entry) : List Entry := ents

/-- Branch body of Go `merge`, dispatching on `firstNewIndex = ents[0].Index`:
pure append, full replace, or partial overlap.  The `min` helper of the
repository is `Nat.min` (the spec: `savedTo` is lowered to
`min(savedTo, firstNewIndex - 1)`). -/
def mergeBody (im : InMemory) (ents : List Entry) (firstNewIndex : Nat) : Option InMemory :=
  if firstNewIndex = (im.markerIndex + im.entries.length) % W then
    if checkEntriesToAppend im.entries ents then
      some { im with entries := im.entries ++ ents }
    else none
  else if firstNewIndex ≤ im.markerIndex then
    some { im with markerIndex := firstNewIndex,
                   entries := newEntrySlice ents,
                   savedTo := wsub firstNewIndex 1 }
  else
    match getEntries im im.markerIndex firstNewIndex with
    | none => none
    | some existing =>
      if checkEntriesToAppend existing ents then
        some { im with entries := existing ++ ents,
                       savedTo := Nat.min im.savedTo (wsub firstNewIndex 1) }
      else none

/-- Go `merge`; `none` stands for any fatal branch (`ents[0]` on an empty
input, a failing `checkEntriesToAppend`, a `getEntries` panic, or a failing
final `checkMarkerIndex`). -/
def merge (im : InMemory) (ents : List Entry) : Option InMemory :=
  match ents with
  | [] => none
  | e0 :: _ =>
    match mergeBody (resizeEntrySlice im) ents e0.index with
    | none => none
    | some im1 => checked im1

/-- Go `restore`: every field of the prior state is overwritten. -/
def restore (_im : InMemory) (ss : Snapshot) : InMemory :=
  { snapshot := some ss, markerIndex := (ss.index + 1) % W, entries := [], savedTo := ss.index }

/-- Public mutating operations of the component. -/
inductive Op where
  | merge (ents : List Entry)
  | savedLogTo (index term : Nat)
  | appliedLogTo (index : Nat)
  | savedSnapshotTo (index : Nat)
  | commitUpdate (cu : UpdateCommit)
  | restore (ss : Snapshot)
  deriving Repr, DecidableEq

/-- One step of the state machine. -/
def applyOp (im : InMemory) : Op → Option InMemory
  | .merge ents => merge im ents
  | .savedLogTo i t => savedLogTo im i t
  | .appliedLogTo i => appliedLogTo im i
  | .savedSnapshotTo i => some (savedSnapshotTo im i)
  | .commitUpdate cu => commitUpdate im cu
  | .restore ss => some (restore im ss)

/-- An entry whose fields are Go-typed uint64 values. -/
def entryOk (e : Entry) : Bool := decide (e.index < W) && decide (e.term < W)

/-- Caller contract of an operation: arguments are Go-typed uint64 values,
and `merge` receives a non-empty sequence of entries ascending by exactly one
(the spec's input contract for merge). -/
def opValid : Op → Prop
  | .merge ents => ents ≠ [] ∧ spanContiguous ents = true ∧ ents.all entryOk = true
  | .savedLogTo i t => i < W ∧ t < W
  | .appliedLogTo i => i < W
  | .savedSnapshotTo i => i < W
  | .commitUpdate cu => cu.stableLogTo < W ∧ cu.stableLogTerm < W ∧ cu.stableSnapshotTo < W
  | .restore ss => ss.index < W ∧ ss.term < W

/-- States of a `LogWindow` reachable from construction by valid operations. -/
inductive Reachable : InMemory → Prop where
  | init (lastIndex : Nat) : lastIndex < W → Reachable (newInMemory lastIndex)
  | step {im : InMemory} {op : Op} {im' : InMemory} :
      Reachable im → opValid op → applyOp im op = some im' → Reachable im'

/-- Buffer indices are contiguous ascending from `base`. -/
def contigB (base : Nat) : List Entry → Bool
  | [] => true
  | e :: rest => (e.index == base) && contigB (base + 1) rest

/-- Data-model well-formedness of a window (section 3 of the spec): the
buffered indices ascend by one from `markerIndex`, all stored numbers fit in
uint64, and the window does not reach the top of the index space. -/
def wfB (im : InMemory) : Bool :=
  decide (im.markerIndex + im.entries.length < W) &&
  decide (im.savedTo < W) &&
  contigB im.markerIndex im.entries &&
  im.entries.all entryOk

/-- An empty buffer only coexists with no snapshot or with a snapshot sitting
exactly one below the marker (wrapping uint64 arithmetic). -/
def snapOk (im : InMemory) : Prop :=
  im.entries = [] →
    im.snapshot = none ∨ ∃ s, im.snapshot = some s ∧ (s.index + 1) % W = im.markerIndex

/-- Invariant carried by every reachable state. -/
def wfR (im : InMemory) : Prop :=
  im.markerIndex < W ∧ im.savedTo < W ∧
  contigB im.markerIndex im.entries = true ∧
  im.entries.all entryOk = true ∧
  (∀ s, im.snapshot = some s → s.index < W ∧ s.term < W) ∧
  snapOk im

/-! Arithmetic helpers for the wrapping uint64 operations. -/

theorem W_pos : 0 < W := by decide

theorem wsub_lt (a b : Nat) : wsub a b < W := Nat.mod_lt _ W_pos

theorem wsub_self (a : Nat) : wsub a a = 0 := by
  unfold wsub
  have h : a % W < W := Nat.mod_lt _ W_pos
  rw [show a % W + (W - a % W) = W by omega, Nat.mod_self]

theorem wsub_eq_of_le {a b : Nat} (hb : b ≤ a) (ha : a < W) : wsub a b = a - b := by
  unfold wsub
  have hbW : b < W := lt_of_le_of_lt hb ha
  rw [Nat.mod_eq_of_lt ha, Nat.mod_eq_of_lt hbW,
    show a + (W - b) = W + (a - b) by omega, Nat.add_mod_left, Nat.mod_eq_of_lt (by omega)]

theorem wsub_eq_of_lt {a b : Nat} (hab : a < b) (hb : b < W) : wsub a b = a + W - b := by
  unfold wsub
  rw [Nat.mod_eq_of_lt (lt_trans hab hb), Nat.mod_eq_of_lt hb,
    Nat.mod_eq_of_lt (by omega)]
  omega

theorem le_wsub_one_add_one {f : Nat} (hf : f < W) : f ≤ wsub f 1 + 1 := by
  cases f with
  | zero =>
    exact Nat.zero_le _
  | succ g =>
    rw [wsub_eq_of_le (by omega) hf]
    omega

/-! Facts about `contigB` and `spanContiguous`. -/

theorem contigB_cons {base : Nat} {e : Entry} {l : List Entry} :
    contigB base (e :: l) = true ↔ e.index = base ∧ contigB (base + 1) l = true := by
  simp [contigB]

theorem contigB_mem {base : Nat} {l : List Entry} (h : contigB base l = true) :
    ∀ e ∈ l, base ≤ e.index ∧ e.index < base + l.length := by
  induction l generalizing base with
  | nil => intro e he; simp at he
  | cons x rest ih =>
    obtain ⟨hx, hr⟩ := contigB_cons.mp h
    intro e he
    rcases List.mem_cons.mp he with rfl | he'
    · simp [hx]
    · have := ih hr e he'
      simp only [List.length_cons]
      omega

theorem contigB_getD {base : Nat} {l : List Entry} (h : contigB base l = true) :
    ∀ i, i < l.length → (l.getD i default).index = base + i := by
  induction l generalizing base with
  | nil => intro i hi; simp at hi
  | cons e rest ih =>
    obtain ⟨he, hr⟩ := contigB_cons.mp h
    intro i hi
    cases i with
    | zero => simpa using he
    | succ j =>
      have hj : j < rest.length := by simpa using hi
      have := ih hr j hj
      simpa [List.getD_cons_succ, Nat.add_comm, Nat.add_assoc, Nat.add_left_comm] using this

theorem contigB_append_iff (l1 l2 : List Entry) (base : Nat) :
    contigB base (l1 ++ l2) = true ↔
      contigB base l1 = true ∧ contigB (base + l1.length) l2 = true := by
  induction l1 generalizing base with
  | nil => simp [contigB]
  | cons e rest ih =>
    simp only [List.cons_append, contigB_cons, ih, List.length_cons]
    rw [show base + (rest.length + 1) = base + 1 + rest.length by omega]
    tauto

theorem contigB_take {base : Nat} {l : List Entry} (h : contigB base l = true) (n : Nat) :
    contigB base (l.take n) = true := by
  have h' : contigB base (l.take n ++ l.drop n) = true := by rwa [List.take_append_drop]
  exact ((contigB_append_iff _ _ _).mp h').1

theorem contigB_drop {base : Nat} {l : List Entry} (h : contigB base l = true)
    {n : Nat} (hn : n ≤ l.length) : contigB (base + n) (l.drop n) = true := by
  have h' : contigB base (l.take n ++ l.drop n) = true := by rwa [List.take_append_drop]
  have := ((contigB_append_iff _ _ _).mp h').2
  rwa [List.length_take, Nat.min_eq_left hn] at this

theorem spanContiguous_cons_iff (e : Entry) (l : List Entry) :
    spanContiguous (e :: l) = true ↔ contigB e.index (e :: l) = true := by
  induction l generalizing e with
  | nil => simp [spanContiguous, contigB]
  | cons b rest ih =>
    have hb := ih b
    simp only [spanContiguous, contigB, Bool.and_eq_true, beq_iff_eq, true_and,
      beq_self_eq_true] at hb ⊢
    constructor
    · rintro ⟨h1, h2⟩
      have h3 := hb.mp h2
      rw [h1] at h3
      exact ⟨h1, h3⟩
    · rintro ⟨h1, h3⟩
      exact ⟨h1, hb.mpr (by rwa [h1])⟩

theorem contigB_span {base : Nat} {l : List Entry} (h : contigB base l = true) (hne : l ≠ []) :
    spanContiguous l = true := by
  cases l with
  | nil => exact absurd rfl hne
  | cons e rest =>
    obtain ⟨he, -⟩ := contigB_cons.mp h
    rw [spanContiguous_cons_iff, he]
    exact h

/-! Facts about `entryOk` and `all`. -/

theorem allOk_bounds {l : List Entry} (h : l.all entryOk = true) :
    ∀ e ∈ l, e.index < W ∧ e.term < W := by
  intro e he
  have := List.all_eq_true.mp h e he
  simpa [entryOk] using this

theorem all_of_sub {p : Entry → Bool} {l l' : List Entry}
    (h : l.all p = true) (hsub : l' ⊆ l) : l'.all p = true :=
  List.all_eq_true.mpr fun e he => List.all_eq_true.mp h e (hsub he)

theorem contig_len_le {base : Nat} {l : List Entry} (hc : contigB base l = true)
    (ho : l.all entryOk = true) (hne : l ≠ []) : base + l.length ≤ W := by
  induction l generalizing base with
  | nil => exact absurd rfl hne
  | cons e rest ih =>
    obtain ⟨he, hr⟩ := contigB_cons.mp hc
    rcases rest with _ | ⟨y, t⟩
    · have := (allOk_bounds ho e (by simp)).1
      simp only [List.length_cons, List.length_nil]
      omega
    · have hsub : y :: t ⊆ e :: y :: t := fun x hx => List.mem_cons_of_mem _ hx
      have hle := ih hr (all_of_sub ho hsub) (by simp)
      simp only [List.length_cons] at hle ⊢
      omega

/-! Facts about `getLastD`, `drop`, `take` and `filter`. -/

theorem getLastD_cons_cons (e y : Entry) (t : List Entry) (a b : Entry) :
    (e :: y :: t).getLastD a = (y :: t).getLastD b := rfl

theorem getLastD_drop {l : List Entry} {k : Nat} (h : k < l.length) (d : Entry) :
    (l.drop k).getLastD d = l.getLastD d := by
  induction l generalizing k with
  | nil => simp at h
  | cons e rest ih =>
    cases k with
    | zero => rfl
    | succ j =>
      have hj : j < rest.length := by simpa using h
      have step : (rest.drop j).getLastD d = rest.getLastD d := ih hj
      rcases rest with _ | ⟨y, t⟩
      · simp at hj
      · calc ((e :: y :: t).drop (j + 1)).getLastD d = ((y :: t).drop j).getLastD d := rfl
          _ = (y :: t).getLastD d := step
          _ = (e :: y :: t).getLastD d := (getLastD_cons_cons e y t d d).symm

theorem contigB_getLastD {base : Nat} {l : List Entry} (h : contigB base l = true)
    (hne : l ≠ []) : (l.getLastD default).index = base + l.length - 1 := by
  induction l generalizing base with
  | nil => exact absurd rfl hne
  | cons e rest ih =>
    obtain ⟨he, hr⟩ := contigB_cons.mp h
    rcases rest with _ | ⟨y, t⟩
    · simpa using he
    · have := ih hr (by simp)
      rw [getLastD_cons_cons e y t default default]
      simp only [List.length_cons] at this ⊢
      omega

theorem getLastD_eq_getD {l : List Entry} (hne : l ≠ []) (d : Entry) :
    l.getLastD d = l.getD (l.length - 1) d := by
  induction l with
  | nil => exact absurd rfl hne
  | cons e rest ih =>
    rcases rest with _ | ⟨y, t⟩
    · rfl
    · calc (e :: y :: t).getLastD d = (y :: t).getLastD d := getLastD_cons_cons e y t d d
        _ = (y :: t).getD ((y :: t).length - 1) d := ih (by simp)
        _ = (e :: y :: t).getD ((e :: y :: t).length - 1) d := by
            simp [List.getD_cons_succ, List.length_cons]

theorem filter_nil_of_le {l : List Entry} {base low high : Nat}
    (hc : contigB base l = true) (hh : high ≤ base) :
    l.filter (fun e => decide (low ≤ e.index) && decide (e.index < high)) = [] := by
  induction l generalizing base with
  | nil => rfl
  | cons e rest ih =>
    obtain ⟨he, hr⟩ := contigB_cons.mp hc
    have hnot : (decide (low ≤ e.index) && decide (e.index < high)) = false := by
      have : ¬ e.index < high := by omega
      simp [this]
    rw [List.filter_cons, hnot]
    simp only [Bool.false_eq_true, if_false]
    exact ih hr (by omega)

theorem slice_eq_filter {l : List Entry} {base low high : Nat}
    (hc : contigB base l = true) (hlow : base ≤ low) :
    (l.drop (low - base)).take (high - low) =
      l.filter (fun e => decide (low ≤ e.index) && decide (e.index < high)) := by
  induction l generalizing base low with
  | nil => simp
  | cons e rest ih =>
    obtain ⟨he, hr⟩ := contigB_cons.mp hc
    by_cases hl : low = base
    · subst hl
      rw [Nat.sub_self, List.drop_zero]
      rcases Nat.lt_or_ge low high with hh | hh
      · have ht : high - low = (high - low - 1) + 1 := by omega
        rw [ht, List.take_succ_cons, List.filter_cons]
        have hp : (decide (low ≤ e.index) && decide (e.index < high)) = true := by
          simp [he, hh]
        rw [hp]
        simp only [if_true]
        congr 1
        have hrec := ih hr (le_refl (low + 1))
        rw [Nat.sub_self, List.drop_zero] at hrec
        rw [show high - low - 1 = high - (low + 1) by omega, hrec]
        apply List.filter_congr
        intro x hx
        have := (contigB_mem hr x hx).1
        have h1 : low ≤ x.index := by omega
        have h2 : low + 1 ≤ x.index := by omega
        simp [h1, h2]
      · rw [show high - low = 0 by omega, List.take_zero]
        exact (filter_nil_of_le hc (by omega)).symm
    · have hlt : base < low := by omega
      rw [show low - base = (low - (base + 1)) + 1 by omega, List.drop_succ_cons,
        List.filter_cons]
      have hp : (decide (low ≤ e.index) && decide (e.index < high)) = false := by
        have : ¬ low ≤ e.index := by omega
        simp [this]
      rw [hp]
      simp only [Bool.false_eq_true, if_false]
      exact ih hr (by omega)

/-! Shape lemmas: how each operation can produce a `some` result. -/

theorem checked_some {x im' : InMemory} (h : checked x = some im') :
    im' = x ∧ checkMarkerIndex x = true := by
  unfold checked at h
  split at h
  · exact ⟨(Option.some.inj h).symm, by assumption⟩
  · cases h

theorem getEntries_marker_some {im : InMemory} {f : Nat} {existing : List Entry}
    (h : getEntries im im.markerIndex f = some existing) :
    im.markerIndex ≤ f ∧ f ≤ (im.markerIndex + im.entries.length) % W ∧
      wsub f im.markerIndex ≤ im.entries.length ∧
      existing = im.entries.take (wsub f im.markerIndex) := by
  unfold getEntries at h
  split at h
  · cases h
  · split at h
    · cases h
    · split at h
      · rename_i hout hup hin
        simp only [Bool.or_eq_true, decide_eq_true_eq, not_or, Nat.not_lt] at hout
        obtain ⟨hmf, -⟩ := hout
        refine ⟨by omega, by omega, by rw [wsub_self] at hin; exact hin.2, ?_⟩
        rw [wsub_self] at h
        simpa using (Option.some.inj h).symm
      · cases h

theorem savedLogTo_some_shape {im : InMemory} {i t : Nat} {im' : InMemory}
    (h : savedLogTo im i t = some im') :
    im' = im ∨ (im.markerIndex ≤ i ∧ im' = { im with savedTo := i }) := by
  unfold savedLogTo at h
  split at h
  · exact Or.inl (Option.some.inj h).symm
  · split at h
    · exact Or.inl (Option.some.inj h).symm
    · split at h
      · exact Or.inl (Option.some.inj h).symm
      · rename_i hlt _ _
        split at h
        · cases h
        · split at h
          · exact Or.inl (Option.some.inj h).symm
          · exact Or.inr ⟨by omega, (Option.some.inj h).symm⟩

theorem savedSnapshotTo_shape (im : InMemory) (i : Nat) :
    savedSnapshotTo im i = { im with snapshot := none } ∨ savedSnapshotTo im i = im := by
  unfold savedSnapshotTo
  split
  · split
    · exact Or.inl rfl
    · exact Or.inr rfl
  · exact Or.inr rfl

theorem commitUpdate_some_shape {im : InMemory} {cu : UpdateCommit} {im' : InMemory}
    (h : commitUpdate im cu = some im') :
    ∃ im1, (savedLogTo im cu.stableLogTo cu.stableLogTerm = some im1 ∨ im1 = im) ∧
      (im' = im1 ∨ im' = savedSnapshotTo im1 cu.stableSnapshotTo) := by
  unfold commitUpdate at h
  split at h
  · cases h
  · rename_i im1 hm
    have him' := (Option.some.inj h).symm
    refine ⟨im1, ?_, ?_⟩
    · by_cases h1 : cu.stableLogTo > 0
      · rw [if_pos h1] at hm; exact Or.inl hm
      · rw [if_neg h1] at hm; exact Or.inr (Option.some.inj hm).symm
    · by_cases h2 : cu.stableSnapshotTo > 0
      · rw [if_pos h2] at him'; exact Or.inr him'
      · rw [if_neg h2] at him'; exact Or.inl him'

theorem appliedLogTo_some_shape {im : InMemory} {i : Nat} {im' : InMemory}
    (h : appliedLogTo im i = some im') :
    im' = im ∨
      (im.markerIndex ≤ i ∧ im.entries.length ≠ 0 ∧
        i ≤ (im.entries.getLastD default).index ∧
        wsub i im.markerIndex ≤ im.entries.length ∧
        checkMarkerIndex { im with entries := im.entries.drop (wsub i im.markerIndex),
                                   markerIndex := i } = true ∧
        im' = { im with entries := im.entries.drop (wsub i im.markerIndex),
                        markerIndex := i }) := by
  unfold appliedLogTo at h
  split at h
  · exact Or.inl (Option.some.inj h).symm
  · split at h
    · exact Or.inl (Option.some.inj h).symm
    · split at h
      · exact Or.inl (Option.some.inj h).symm
      · split at h
        · obtain ⟨rfl, hck⟩ := checked_some h
          rename_i h1 h2 h3 h4
          exact Or.inr ⟨by omega, h2, by omega, h4, hck, rfl⟩
        · cases h

theorem merge_some_shape {im : InMemory} {ents : List Entry} {im' : InMemory}
    (h : merge im ents = some im') :
    ∃ e0 rest, ents = e0 :: rest ∧ checkMarkerIndex im' = true ∧
      ((e0.index = (im.markerIndex + im.entries.length) % W ∧
          checkEntriesToAppend im.entries ents = true ∧
          im' = { im with entries := im.entries ++ ents }) ∨
       (e0.index ≠ (im.markerIndex + im.entries.length) % W ∧
          e0.index ≤ im.markerIndex ∧
          im' = { im with markerIndex := e0.index, entries := ents,
                          savedTo := wsub e0.index 1 }) ∨
       (im.markerIndex < e0.index ∧
          ∃ existing, getEntries im im.markerIndex e0.index = some existing ∧
            checkEntriesToAppend existing ents = true ∧
            im' = { im with entries := existing ++ ents,
                            savedTo := Nat.min im.savedTo (wsub e0.index 1) })) := by
  cases ents with
  | nil => simp [merge] at h
  | cons e0 rest =>
    refine ⟨e0, rest, rfl, ?_⟩
    rw [merge] at h
    simp only [resizeEntrySlice] at h
    cases hb : mergeBody im (e0 :: rest) e0.index with
    | none => rw [hb] at h; cases h
    | some im1 =>
      rw [hb] at h
      obtain ⟨rfl, hck⟩ := checked_some h
      refine ⟨hck, ?_⟩
      unfold mergeBody at hb
      split at hb
      · split at hb
        · rename_i hc1 hchk
          exact Or.inl ⟨hc1, hchk, (Option.some.inj hb).symm⟩
        · cases hb
      · split at hb
        · rename_i hc1 hc2
          exact Or.inr (Or.inl ⟨hc1, hc2, (Option.some.inj hb).symm⟩)
        · rename_i hc1 hc2
          split at hb
          · cases hb
          · rename_i existing hge
            split at hb
            · rename_i hchk
              exact Or.inr (Or.inr ⟨by omega, existing, hge, hchk,
                (Option.some.inj hb).symm⟩)
            · cases hb

/-! Preservation of the reachable-state invariant `wfR` by every operation. -/

theorem wfR_savedLogTo {im : InMemory} {i t : Nat} {im' : InMemory}
    (hwf : wfR im) (hi : i < W) (h : savedLogTo im i t = some im') : wfR im' := by
  rcases savedLogTo_some_shape h with rfl | ⟨-, rfl⟩
  · exact hwf
  · obtain ⟨h1, h2, h3, h4, h5, h6⟩ := hwf
    exact ⟨h1, hi, h3, h4, h5, h6⟩

theorem wfR_savedSnapshotTo {im : InMemory} (i : Nat) (hwf : wfR im) :
    wfR (savedSnapshotTo im i) := by
  rcases savedSnapshotTo_shape im i with hs | hs <;> rw [hs]
  · obtain ⟨h1, h2, h3, h4, h5, h6⟩ := hwf
    refine ⟨h1, h2, h3, h4, ?_, ?_⟩
    · intro s hs'
      simp at hs'
    · intro _
      exact Or.inl rfl
  · exact hwf

theorem wfR_commitUpdate {im : InMemory} {cu : UpdateCommit} {im' : InMemory}
    (hwf : wfR im) (hcu : cu.stableLogTo < W) (h : commitUpdate im cu = some im') :
    wfR im' := by
  obtain ⟨im1, hm, hres⟩ := commitUpdate_some_shape h
  have hwf1 : wfR im1 := by
    rcases hm with hm | rfl
    · exact wfR_savedLogTo hwf hcu hm
    · exact hwf
  rcases hres with rfl | rfl
  · exact hwf1
  · exact wfR_savedSnapshotTo _ hwf1

theorem wfR_appliedLogTo {im : InMemory} {i : Nat} {im' : InMemory}
    (hwf : wfR im) (hi : i < W) (h : appliedLogTo im i = some im') : wfR im' := by
  rcases appliedLogTo_some_shape h with rfl | ⟨hmi, hlen, hlast, hle, hck, rfl⟩
  · exact hwf
  · obtain ⟨h1, h2, h3, h4, h5, h6⟩ := hwf
    have hw : wsub i im.markerIndex = i - im.markerIndex := wsub_eq_of_le hmi hi
    have hne : im.entries ≠ [] := by
      intro h0; rw [h0] at hlen; simp at hlen
    have hlast' : (im.entries.getLastD default).index =
        im.markerIndex + im.entries.length - 1 := contigB_getLastD h3 hne
    have hlen' : im.entries.length ≠ 0 := hlen
    have hposlt : i - im.markerIndex < im.entries.length := by omega
    refine ⟨hi, h2, ?_, ?_, h5, ?_⟩
    · show contigB i (im.entries.drop (wsub i im.markerIndex)) = true
      have hd := contigB_drop h3 (show i - im.markerIndex ≤ im.entries.length by omega)
      rw [show im.markerIndex + (i - im.markerIndex) = i by omega] at hd
      rw [hw]
      exact hd
    · exact all_of_sub h4 (List.drop_subset _ _)
    · intro he
      exfalso
      have : im.entries.drop (i - im.markerIndex) = [] := by rwa [hw] at he
      have := List.drop_eq_nil_iff.mp this
      omega

theorem wfR_restore {im : InMemory} {ss : Snapshot}
    (hb1 : ss.index < W) (hb2 : ss.term < W) : wfR (restore im ss) := by
  refine ⟨Nat.mod_lt _ W_pos, hb1, rfl, rfl, ?_, ?_⟩
  · intro s hs
    have : ss = s := Option.some.inj hs
    subst this
    exact ⟨hb1, hb2⟩
  · intro _
    exact Or.inr ⟨ss, rfl, rfl⟩

theorem wfR_merge {im : InMemory} {ents : List Entry} {im' : InMemory}
    (hwf : wfR im) (hv : opValid (.merge ents)) (h : merge im ents = some im') :
    wfR im' := by
  obtain ⟨hne, hspan, hok⟩ := hv
  obtain ⟨h1, h2, h3, h4, h5, h6⟩ := hwf
  obtain ⟨e0, rest, rfl, hck, hcase⟩ := merge_some_shape h
  have he0W : e0.index < W := (allOk_bounds hok e0 (by simp)).1
  have hcontigents : contigB e0.index (e0 :: rest) = true :=
    (spanContiguous_cons_iff e0 rest).mp hspan
  rcases hcase with ⟨hc1, hchk, rfl⟩ | ⟨hc1, hc2, rfl⟩ | ⟨hlt, existing, hge, hchk, rfl⟩
  · refine ⟨h1, h2, ?_, ?_, h5, ?_⟩
    · show contigB im.markerIndex (im.entries ++ e0 :: rest) = true
      unfold checkEntriesToAppend at hchk
      rcases hent : im.entries with _ | ⟨x, tl⟩
      · rw [hent] at hc1
        simp only [List.length_nil, Nat.add_zero] at hc1
        rw [Nat.mod_eq_of_lt h1] at hc1
        simp only [List.nil_append]
        rw [← hc1]
        exact hcontigents
      · rw [hent] at hchk h3
        have hxi : x.index = im.markerIndex := (contigB_cons.mp h3).1
        rw [List.cons_append] at hchk
        have hcc := (spanContiguous_cons_iff x (tl ++ e0 :: rest)).mp hchk
        rw [hxi] at hcc
        rw [List.cons_append]
        exact hcc
    · show (im.entries ++ e0 :: rest).all entryOk = true
      simp [List.all_append, h4, hok]
    · intro he
      simp at he
  · refine ⟨he0W, wsub_lt _ _, hcontigents, hok, h5, ?_⟩
    intro he
    simp at he
  · obtain ⟨hmf, hfup, hwle, rfl⟩ := getEntries_marker_some hge
    have hk : wsub e0.index im.markerIndex = e0.index - im.markerIndex :=
      wsub_eq_of_le (le_of_lt hlt) he0W
    refine ⟨h1, lt_of_le_of_lt (Nat.min_le_left _ _) h2, ?_, ?_, h5, ?_⟩
    · show contigB im.markerIndex
        (im.entries.take (wsub e0.index im.markerIndex) ++ e0 :: rest) = true
      rw [contigB_append_iff]
      refine ⟨contigB_take h3 _, ?_⟩
      rw [List.length_take, Nat.min_eq_left hwle, hk,
        show im.markerIndex + (e0.index - im.markerIndex) = e0.index by omega]
      exact hcontigents
    · show (im.entries.take (wsub e0.index im.markerIndex) ++ e0 :: rest).all entryOk = true
      simp [List.all_append, all_of_sub h4 (List.take_subset _ _), hok]
    · intro he
      simp at he

theorem wfR_init (lastIndex : Nat) (h : lastIndex < W) : wfR (newInMemory lastIndex) := by
  refine ⟨Nat.mod_lt _ W_pos, h, rfl, rfl, ?_, ?_⟩
  · intro s hs
    simp [newInMemory] at hs
  · intro _
    exact Or.inl rfl

theorem wfR_applyOp {im : InMemory} {op : Op} {im' : InMemory}
    (hwf : wfR im) (hv : opValid op) (h : applyOp im op = some im') : wfR im' := by
  cases op with
  | merge ents => exact wfR_merge hwf hv h
  | savedLogTo i t => exact wfR_savedLogTo hwf hv.1 h
  | appliedLogTo i => exact wfR_appliedLogTo hwf hv h
  | savedSnapshotTo i => exact (Option.some.inj h) ▸ wfR_savedSnapshotTo i hwf
  | commitUpdate cu => exact wfR_commitUpdate hwf hv.1 h
  | restore ss => exact (Option.some.inj h) ▸ wfR_restore hv.1 hv.2

theorem reachable_wfR {im : InMemory} (h : Reachable im) : wfR im := by
  induction h with
  | init l hl => exact wfR_init l hl
  | step hr hv hs ih => exact wfR_applyOp ih hv hs

/-! Final helpers used by the claim theorems. -/

theorem wfB_spec {im : InMemory} (h : wfB im = true) :
    im.markerIndex + im.entries.length < W ∧ im.savedTo < W ∧
      contigB im.markerIndex im.entries = true ∧ im.entries.all entryOk = true := by
  unfold wfB at h
  simp only [Bool.and_eq_true, decide_eq_true_eq] at h
  exact ⟨h.1.1.1, h.1.1.2, h.1.2, h.2⟩

theorem checkMarkerIndex_of_contig {im : InMemory}
    (h : contigB im.markerIndex im.entries = true) : checkMarkerIndex im = true := by
  unfold checkMarkerIndex
  cases he : im.entries with
  | nil => rfl
  | cons x tl =>
    rw [he] at h
    simp [(contigB_cons.mp h).1]

theorem getLast?_eq_getLastD {l : List Entry} (hne : l ≠ []) :
    l.getLast? = some (l.getLastD default) := by
  induction l with
  | nil => exact absurd rfl hne
  | cons x t ih =>
    rcases t with _ | ⟨y, u⟩
    · rfl
    · rw [List.getLast?_cons_cons, ih (by simp), getLastD_cons_cons x y u default default]

theorem getD_eq_get? {l : List Entry} {n : Nat} (h : n < l.length) :
    l.get? n = some (l.getD n default) := by
  induction l generalizing n with
  | nil => simp at h
  | cons x t ih =>
    cases n with
    | zero => rfl
    | succ m =>
      have hm : m < t.length := by simpa using h
      simpa [List.getD_cons_succ] using ih hm

/-! Claim theorems. -/

/-- C8: for every prior state, `restore(snapshot)` yields
`markerIndex = snapshot.index + 1`, an empty buffer, `savedTo = snapshot.index`
and the given snapshot pending; a subsequent `savedSnapshotTo(i)` clears the
pending snapshot if and only if `i` equals the pending snapshot's index, and
otherwise leaves the state unchanged without failing (the operation is total). -/
theorem c8_restore_then_ack (im : InMemory) (ss : Snapshot) (hW : ss.index + 1 < W) :
    restore im ss = { snapshot := some ss, entries := [], markerIndex := ss.index + 1,
                      savedTo := ss.index } ∧
    ∀ i, savedSnapshotTo (restore im ss) i =
      if i = ss.index then
        { snapshot := none, entries := [], markerIndex := ss.index + 1, savedTo := ss.index }
      else restore im ss := by
  have hmod : (ss.index + 1) % W = ss.index + 1 := Nat.mod_eq_of_lt hW
  constructor
  · unfold restore
    rw [hmod]
  · intro i
    unfold restore savedSnapshotTo
    rw [hmod]
    by_cases hi : i = ss.index
    · simp [hi]
    · simp only [if_neg hi, if_neg (fun h => hi (Eq.symm h))]

/-- C8 witness: `restore({index:10,term:3})` then `savedSnapshotTo(10)` clears
the pending snapshot while `savedSnapshotTo(11)` leaves it set. -/
theorem c8_witness :
    restore (newInMemory 0) ⟨10, 3⟩ =
      { snapshot := some ⟨10, 3⟩, entries := [], markerIndex := 11, savedTo := 10 } ∧
    savedSnapshotTo (restore (newInMemory 0) ⟨10, 3⟩) 10 =
      { snapshot := none, entries := [], markerIndex := 11, savedTo := 10 } ∧
    savedSnapshotTo (restore (newInMemory 0) ⟨10, 3⟩) 11 =
      { snapshot := some ⟨10, 3⟩, entries := [], markerIndex := 11, savedTo := 10 } := by
  have h := c8_restore_then_ack (newInMemory 0) ⟨10, 3⟩ (by decide)
  refine ⟨h.1, (h.2 10).trans (by decide), ((h.2 11).trans (by decide)).trans h.1⟩

/-- C6: on a well-formed window, `savedLogTo(index, term)` sets `savedTo` to
`index` exactly when `index ≥ markerIndex`, the buffer is non-empty, `index`
is at most the last buffered entry's index, and the buffered entry at `index`
carries the given term; when any check fails the whole state is left
unchanged, and in both cases the call returns normally (no fault). -/
theorem c6_savedLogTo_guard (im : InMemory) (i t : Nat)
    (hwf : wfB im = true) (hi : i < W) :
    ((im.markerIndex ≤ i ∧ im.entries ≠ [] ∧
        i ≤ (im.entries.getLastD default).index ∧
        (im.entries.getD (i - im.markerIndex) default).term = t) →
      savedLogTo im i t = some { im with savedTo := i }) ∧
    (¬(im.markerIndex ≤ i ∧ im.entries ≠ [] ∧
        i ≤ (im.entries.getLastD default).index ∧
        (im.entries.getD (i - im.markerIndex) default).term = t) →
      savedLogTo im i t = some im) := by
  obtain ⟨hWlen, hsav, hcontig, hok⟩ := wfB_spec hwf
  constructor
  · rintro ⟨hm, hne, hlast, hterm⟩
    have hlen0 : ¬ im.entries.length = 0 := by
      intro h0; exact hne (List.length_eq_zero.mp h0)
    have hlast' := contigB_getLastD hcontig hne
    rw [hlast'] at hlast
    have hw : wsub i im.markerIndex = i - im.markerIndex := wsub_eq_of_le hm hi
    have hposlt : i - im.markerIndex < im.entries.length := by omega
    unfold savedLogTo
    rw [if_neg (by omega), if_neg hlen0, if_neg (by rw [hlast']; omega), hw,
      getD_eq_get? hposlt]
    show (if t ≠ (im.entries.getD (i - im.markerIndex) default).term then some im
      else some { im with savedTo := i }) = some { im with savedTo := i }
    rw [if_neg (by rw [hterm]; exact fun h => h rfl)]
  · intro hnc
    unfold savedLogTo
    by_cases hm : i < im.markerIndex
    · rw [if_pos hm]
    · rw [if_neg hm]
      by_cases hlen0 : im.entries.length = 0
      · rw [if_pos hlen0]
      · rw [if_neg hlen0]
        have hne : im.entries ≠ [] := by
          intro h0; rw [h0] at hlen0; exact hlen0 rfl
        have hlast' := contigB_getLastD hcontig hne
        by_cases hgt : i > (im.entries.getLastD default).index
        · rw [if_pos hgt]
        · rw [if_neg hgt]
          rw [hlast'] at hgt
          have hterm : ¬ (im.entries.getD (i - im.markerIndex) default).term = t := by
            intro he
            exact hnc ⟨by omega, hne, by rw [hlast']; omega, he⟩
          have hw : wsub i im.markerIndex = i - im.markerIndex :=
            wsub_eq_of_le (by omega) hi
          have hposlt : i - im.markerIndex < im.entries.length := by omega
          rw [hw, getD_eq_get? hposlt]
          show (if t ≠ (im.entries.getD (i - im.markerIndex) default).term then some im
            else some { im with savedTo := i }) = some im
          rw [if_pos (fun h => hterm h.symm)]

/-- Concrete sample window used by several witnesses: buffer `[⟨1,7⟩, ⟨2,8⟩]`,
`markerIndex = 1`, `savedTo = 0`, no pending snapshot. -/
def imA : InMemory :=
  { snapshot := none, entries := [⟨1, 7⟩, ⟨2, 8⟩], markerIndex := 1, savedTo := 0 }

/-- C6 witness: on the window `imA`, a matching report advances `savedTo`
and a term-mismatched report is silently ignored. -/
theorem c6_witness :
    savedLogTo imA 2 8 = some { imA with savedTo := 2 } ∧
    savedLogTo imA 2 9 = some imA := by
  constructor
  · exact (c6_savedLogTo_guard imA 2 8 (by decide) (by decide)).1
      ⟨by decide, by decide, by decide, by decide⟩
  · exact (c6_savedLogTo_guard imA 2 9 (by decide) (by decide)).2 (by decide)

/-- C9: on a well-formed window, `entriesInRange(low, high)` under the
precondition `low ≤ high ∧ low ≥ markerIndex ∧ high ≤ markerIndex + len`
returns exactly the buffered entries with index in `[low, high)` (the
function is pure, so nothing is mutated), and any violation of the
precondition reaches the fatal branch (`none`) instead of returning. -/
theorem c9_getEntries_range (im : InMemory) (low high : Nat)
    (hwf : wfB im = true) (hlw : low < W) (hhw : high < W) :
    ((low ≤ high ∧ im.markerIndex ≤ low ∧ high ≤ im.markerIndex + im.entries.length) →
      getEntries im low high =
        some (im.entries.filter (fun e => decide (low ≤ e.index) && decide (e.index < high)))) ∧
    (¬(low ≤ high ∧ im.markerIndex ≤ low ∧ high ≤ im.markerIndex + im.entries.length) →
      getEntries im low high = none) := by
  obtain ⟨hWlen, hsav, hcontig, hok⟩ := wfB_spec hwf
  constructor
  · rintro ⟨h1, h2, h3⟩
    have hlo : wsub low im.markerIndex = low - im.markerIndex := wsub_eq_of_le h2 hlw
    have hhi : wsub high im.markerIndex = high - im.markerIndex :=
      wsub_eq_of_le (by omega) hhw
    unfold getEntries
    rw [if_neg (by
      simp only [Bool.or_eq_true, decide_eq_true_eq, not_or, Nat.not_lt]
      omega)]
    rw [if_neg (by rw [Nat.mod_eq_of_lt hWlen]; omega)]
    rw [if_pos (by rw [hlo, hhi]; omega)]
    rw [hlo, hhi, show high - im.markerIndex - (low - im.markerIndex) = high - low by omega]
    exact congrArg some (slice_eq_filter hcontig h2)
  · intro hnc
    unfold getEntries
    by_cases hA : low > high ∨ low < im.markerIndex
    · rw [if_pos (by simp only [Bool.or_eq_true, decide_eq_true_eq]; exact hA)]
    · have hB : high > im.markerIndex + im.entries.length := by
        rcases Nat.lt_or_ge (im.markerIndex + im.entries.length) high with h | h
        · exact h
        · exact absurd ⟨by omega, by omega, h⟩ hnc
      rw [if_neg (by simp only [Bool.or_eq_true, decide_eq_true_eq]; exact hA)]
      rw [if_pos (by rw [Nat.mod_eq_of_lt hWlen]; omega)]

/-- C9 witness: querying `[1, 3)` on `imA` returns exactly the two buffered
entries below index 3, and the out-of-range query `[1, 4)` faults. -/
theorem c9_witness :
    getEntries imA 1 3 = some [⟨1, 7⟩, ⟨2, 8⟩] ∧ getEntries imA 1 4 = none := by
  constructor
  · exact ((c9_getEntries_range imA 1 3 (by decide) (by decide) (by decide)).1
      ⟨by decide, by decide, by decide⟩).trans (by decide)
  · exact (c9_getEntries_range imA 1 4 (by decide) (by decide) (by decide)).2 (by decide)

/-- C7: on a well-formed window whose pending snapshot (if any) sits below the
marker, `termAt(i)` answers from the snapshot exactly when `i < markerIndex`
and the snapshot's index is exactly `i`; answers from the buffer exactly when
`i ≥ markerIndex` and `i` is at most the index reported by `lastIndex()`; and
reports not-found (rather than faulting) for every other `i`. -/
theorem c7_getTerm_ranges (im : InMemory) (i : Nat) (hwf : wfB im = true)
    (hsnap : ∀ s, im.snapshot = some s → s.index < im.markerIndex) (hi : i < W) :
    (∀ s, im.snapshot = some s → s.index = i → getTerm im i = some (s.term, true)) ∧
    (i < im.markerIndex → (∀ s, im.snapshot = some s → s.index ≠ i) →
      getTerm im i = some (0, false)) ∧
    (im.markerIndex ≤ i → (getLastIndex im).2 = true → i ≤ (getLastIndex im).1 →
      getTerm im i = some ((im.entries.getD (i - im.markerIndex) default).term, true)) ∧
    (im.markerIndex ≤ i → ¬((getLastIndex im).2 = true ∧ i ≤ (getLastIndex im).1) →
      getTerm im i = some (0, false)) := by
  obtain ⟨hWlen, hsav, hcontig, hok⟩ := wfB_spec hwf
  refine ⟨?_, ?_, ?_, ?_⟩
  · intro s hs hsi
    have hlt : i < im.markerIndex := hsi ▸ hsnap s hs
    unfold getTerm
    rw [if_pos hlt, hs]
    simp [hsi]
  · intro hlt hnone
    unfold getTerm
    rw [if_pos hlt]
    cases hs : im.snapshot with
    | none => rfl
    | some s =>
      have := hnone s hs
      simp [this]
  · intro hm hfound hle
    unfold getTerm
    rw [if_neg (Nat.not_lt.mpr hm)]
    rw [if_pos (by simp only [Bool.and_eq_true, decide_eq_true_eq]; exact ⟨hfound, hle⟩)]
    by_cases hne : im.entries = []
    · exfalso
      unfold getLastIndex at hfound hle
      rw [hne] at hfound hle
      simp only [List.getLast?_nil] at hfound hle
      unfold getSnapshotIndex at hfound hle
      cases hs : im.snapshot with
      | none => rw [hs] at hfound; simp at hfound
      | some s =>
        rw [hs] at hle
        have := hsnap s hs
        simp only at hle
        omega
    · have hlast : (getLastIndex im).1 = im.markerIndex + im.entries.length - 1 := by
        unfold getLastIndex
        rw [getLast?_eq_getLastD hne]
        exact contigB_getLastD hcontig hne
      rw [hlast] at hle
      have hlen0 : im.entries.length ≠ 0 := by
        intro h0; exact hne (List.length_eq_zero.mp h0)
      have hposlt : i - im.markerIndex < im.entries.length := by omega
      rw [wsub_eq_of_le hm hi, getD_eq_get? hposlt]
  · intro hm hnot
    unfold getTerm
    rw [if_neg (Nat.not_lt.mpr hm)]
    rw [if_neg (by simp only [Bool.and_eq_true, decide_eq_true_eq]; exact hnot)]

/-- C7 witness: on `imA` with a pending snapshot at index 0, the snapshot term
is visible exactly at index 0, buffered terms at 1 and 2, and indices beyond
the buffer report not-found. -/
theorem c7_witness :
    getTerm { imA with snapshot := some ⟨0, 5⟩ } 0 = some (5, true) ∧
    getTerm { imA with snapshot := some ⟨0, 5⟩ } 2 = some (8, true) ∧
    getTerm { imA with snapshot := some ⟨0, 5⟩ } 3 = some (0, false) := by
  have h := c7_getTerm_ranges { imA with snapshot := some ⟨0, 5⟩ } 0 (by decide)
    (by intro s hs; cases hs; decide) (by decide)
  have h2 := c7_getTerm_ranges { imA with snapshot := some ⟨0, 5⟩ } 2 (by decide)
    (by intro s hs; cases hs; decide) (by decide)
  have h3 := c7_getTerm_ranges { imA with snapshot := some ⟨0, 5⟩ } 3 (by decide)
    (by intro s hs; cases hs; decide) (by decide)
  refine ⟨h.1 ⟨0, 5⟩ rfl (by decide), ?_, ?_⟩
  · exact (h2.2.2.1 (by decide) (by decide) (by decide)).trans (by decide)
  · exact h3.2.2.2 (by decide) (by decide)

/-- C3: on a well-formed window covering `[markerIndex, markerIndex+len)`,
merging a non-empty contiguous input whose first index `f` satisfies
`markerIndex < f < markerIndex + len` keeps exactly the buffered entries with
index strictly below `f`, appends the input after them, leaves `markerIndex`
unchanged, and sets `savedTo` to `min(old savedTo, f - 1)`. -/
theorem c3_merge_partial_overlap (im : InMemory) (e0 : Entry) (rest : List Entry)
    (hwf : wfB im = true)
    (hspan : spanContiguous (e0 :: rest) = true)
    (hlow : im.markerIndex < e0.index)
    (hhigh : e0.index < im.markerIndex + im.entries.length) :
    merge im (e0 :: rest) =
      some { im with
        entries := im.entries.filter (fun e => decide (e.index < e0.index)) ++ (e0 :: rest),
        savedTo := Nat.min im.savedTo (e0.index - 1) } := by
  obtain ⟨hWlen, hsav, hcontig, hok⟩ := wfB_spec hwf
  have he0W : e0.index < W := by omega
  have hkle : e0.index - im.markerIndex ≤ im.entries.length := by omega
  have hcontigX : contigB im.markerIndex
      (im.entries.take (e0.index - im.markerIndex) ++ e0 :: rest) = true := by
    rw [contigB_append_iff]
    refine ⟨contigB_take hcontig _, ?_⟩
    rw [List.length_take, Nat.min_eq_left hkle,
      show im.markerIndex + (e0.index - im.markerIndex) = e0.index by omega]
    exact (spanContiguous_cons_iff e0 rest).mp hspan
  have hg : getEntries im im.markerIndex e0.index =
      some (im.entries.take (e0.index - im.markerIndex)) := by
    unfold getEntries
    rw [if_neg (by
      simp only [Bool.or_eq_true, decide_eq_true_eq, not_or, Nat.not_lt]
      omega)]
    rw [if_neg (by rw [Nat.mod_eq_of_lt hWlen]; omega)]
    rw [if_pos (by rw [wsub_self, wsub_eq_of_le (le_of_lt hlow) he0W]; omega)]
    rw [wsub_self, wsub_eq_of_le (le_of_lt hlow) he0W, List.drop_zero, Nat.sub_zero]
  have hchk : checkEntriesToAppend (im.entries.take (e0.index - im.markerIndex))
      (e0 :: rest) = true := by
    unfold checkEntriesToAppend
    exact contigB_span hcontigX (by simp)
  have hb : mergeBody im (e0 :: rest) e0.index =
      some { im with
        entries := im.entries.take (e0.index - im.markerIndex) ++ (e0 :: rest),
        savedTo := Nat.min im.savedTo (wsub e0.index 1) } := by
    unfold mergeBody
    rw [if_neg (by rw [Nat.mod_eq_of_lt hWlen]; omega), if_neg (by omega), hg]
    simp [hchk]
  have hfil : im.entries.take (e0.index - im.markerIndex) =
      im.entries.filter (fun e => decide (e.index < e0.index)) := by
    have h1 : (im.entries.drop (im.markerIndex - im.markerIndex)).take
          (e0.index - im.markerIndex) =
        im.entries.filter
          (fun e => decide (im.markerIndex ≤ e.index) && decide (e.index < e0.index)) :=
      slice_eq_filter hcontig (le_refl im.markerIndex)
    rw [Nat.sub_self, List.drop_zero] at h1
    rw [h1]
    apply List.filter_congr
    intro x hx
    have := (contigB_mem hcontig x hx).1
    simp [this]
  rw [merge]
  simp only [resizeEntrySlice]
  rw [hb]
  show checked _ = _
  unfold checked
  rw [if_pos (checkMarkerIndex_of_contig (by exact hcontigX))]
  rw [hfil, wsub_eq_of_le (by omega) he0W]

/-- C3 witness: merging `[⟨2,9⟩]` into `imA` (buffer `[⟨1,7⟩, ⟨2,8⟩]`,
`savedTo = 0`) keeps only the entry below index 2, appends the input, keeps
`markerIndex = 1` and sets `savedTo = min 0 1 = 0`. -/
theorem c3_witness :
    merge imA [⟨2, 9⟩] =
      some { snapshot := none, entries := [⟨1, 7⟩, ⟨2, 9⟩], markerIndex := 1, savedTo := 0 } := by
  exact (c3_merge_partial_overlap imA ⟨2, 9⟩ [] (by decide) (by decide) (by decide)
    (by decide)).trans (by decide)

/-! Introduction helpers for `opValid` (definitional repackaging). -/

theorem opValid_merge {ents : List Entry} (h1 : ents ≠ [])
    (h2 : spanContiguous ents = true) (h3 : ents.all entryOk = true) :
    opValid (.merge ents) := ⟨h1, h2, h3⟩

theorem opValid_appliedLogTo {i : Nat} (h : i < W) : opValid (.appliedLogTo i) := h

theorem opValid_savedLogTo {i t : Nat} (h1 : i < W) (h2 : t < W) :
    opValid (.savedLogTo i t) := ⟨h1, h2⟩

theorem opValid_restore {ss : Snapshot} (h1 : ss.index < W) (h2 : ss.term < W) :
    opValid (.restore ss) := ⟨h1, h2⟩

/-- Sample window reached by merging `[1..5]` into a fresh log and compacting
to index 5: buffer `[⟨5,1⟩]`, `markerIndex = 5`, `savedTo = 0`. -/
def imB : InMemory := { snapshot := none, entries := [⟨5, 1⟩], markerIndex := 5, savedTo := 0 }

/-- Result of merging `[⟨5,2⟩]` into `imB`: `savedTo` jumps up to 4. -/
def imB' : InMemory := { snapshot := none, entries := [⟨5, 2⟩], markerIndex := 5, savedTo := 4 }

/-- Intermediate sample window: `[1..5]` all at term 1, `markerIndex = 1`. -/
def imC : InMemory :=
  { snapshot := none, entries := [⟨1, 1⟩, ⟨2, 1⟩, ⟨3, 1⟩, ⟨4, 1⟩, ⟨5, 1⟩], markerIndex := 1, savedTo := 0 }

/-- C4 counterexample: `imB` is reachable (fresh log, merge `[1..5]`, then
`appliedLogTo 5`), and a full-replace merge of `[⟨5,2⟩]` into it sets
`savedTo` to `4`, which is strictly greater than the previous `savedTo = 0`:
the claim's clause "f - 1 is less than or equal to the previous savedTo"
fails on this window state. -/
theorem c4_cex : Reachable imB ∧ merge imB [⟨5, 2⟩] = some imB' ∧
    ¬ imB'.savedTo ≤ imB.savedTo := by
  refine ⟨?_, by decide, by decide⟩
  have s1 : Reachable imC :=
    @Reachable.step (newInMemory 0) (.merge [⟨1, 1⟩, ⟨2, 1⟩, ⟨3, 1⟩, ⟨4, 1⟩, ⟨5, 1⟩]) imC
      (Reachable.init 0 (by decide))
      (opValid_merge (by decide) (by decide) (by decide)) (by decide)
  exact @Reachable.step imC (.appliedLogTo 5) imB s1 (opValid_appliedLogTo (by decide))
    (by decide)

/-- C4 (amended): for every window state whose indices fit uint64, merging a
non-empty contiguous input with first index `f` satisfying `1 ≤ f ≤
markerIndex` — excluding the shadowed corner `f = markerIndex` with an empty
buffer, which the code sends through the append branch — discards the whole
buffer, installs a copy of the input alone, sets `markerIndex = f` and
`savedTo = f - 1`; and `f - 1` is at most the previous `savedTo` whenever the
invariant `savedTo ≥ markerIndex - 1` held before the call. -/
theorem c4_merge_full_replace (im : InMemory) (e0 : Entry) (rest : List Entry)
    (hWlen : im.markerIndex + im.entries.length < W)
    (hspan : spanContiguous (e0 :: rest) = true)
    (hok : (e0 :: rest).all entryOk = true)
    (hf1 : 1 ≤ e0.index) (hfm : e0.index ≤ im.markerIndex)
    (hside : im.entries ≠ [] ∨ e0.index < im.markerIndex) :
    merge im (e0 :: rest) =
      some { im with markerIndex := e0.index, entries := e0 :: rest,
                     savedTo := e0.index - 1 } ∧
    (im.markerIndex ≤ im.savedTo + 1 → e0.index - 1 ≤ im.savedTo) := by
  have he0W : e0.index < W := (allOk_bounds hok e0 (by simp)).1
  have hc1 : ¬ e0.index = (im.markerIndex + im.entries.length) % W := by
    rw [Nat.mod_eq_of_lt hWlen]
    rcases hside with hne | hlt
    · have : im.entries.length ≠ 0 := fun h0 => hne (List.length_eq_zero.mp h0)
      omega
    · omega
  refine ⟨?_, fun hinv => by omega⟩
  rw [merge]
  simp only [resizeEntrySlice]
  have hb : mergeBody im (e0 :: rest) e0.index =
      some { im with markerIndex := e0.index, entries := e0 :: rest,
                     savedTo := wsub e0.index 1 } := by
    unfold mergeBody
    rw [if_neg hc1, if_pos hfm]
    rfl
  rw [hb]
  show checked _ = _
  unfold checked
  rw [if_pos (by unfold checkMarkerIndex; simp)]
  rw [wsub_eq_of_le hf1 he0W]

/-- C4 witness: a full-replace merge of `[⟨1,9⟩, ⟨2,9⟩]` into `imA`
(whose `savedTo = 0 = markerIndex - 1`) rebuilds the window from the input
with `markerIndex = 1` and `savedTo = 0 ≤` previous `savedTo`. -/
theorem c4_witness :
    merge imA [⟨1, 9⟩, ⟨2, 9⟩] =
      some { imA with markerIndex := 1, entries := [⟨1, 9⟩, ⟨2, 9⟩], savedTo := 0 } ∧
    (0 : Nat) ≤ imA.savedTo := by
  have h := c4_merge_full_replace imA ⟨1, 9⟩ [⟨2, 9⟩] (by decide) (by decide) (by decide)
    (by decide) (by decide) (Or.inl (by decide))
  exact ⟨h.1, h.2 (by decide)⟩

/-- The window left after compacting `imC` to index 3. -/
def imD : InMemory :=
  { snapshot := none, entries := [⟨3, 1⟩, ⟨4, 1⟩, ⟨5, 1⟩], markerIndex := 3, savedTo := 0 }

/-- C1 counterexample: the reachable state `imC` (fresh log, merge `[1..5]`)
satisfies `savedTo ≥ markerIndex - 1`, yet the public operation
`appliedLogTo 3` succeeds and leaves a state with `markerIndex = 3` and
`savedTo = 0`, violating the invariant: `appliedLogTo` does not preserve it. -/
theorem c1_cex :
    Reachable imC ∧ opValid (.appliedLogTo 3) ∧
    applyOp imC (.appliedLogTo 3) = some imD ∧
    imC.markerIndex ≤ imC.savedTo + 1 ∧ ¬ imD.markerIndex ≤ imD.savedTo + 1 := by
  refine ⟨?_, opValid_appliedLogTo (by decide), by decide, by decide, by decide⟩
  exact @Reachable.step (newInMemory 0) (.merge [⟨1, 1⟩, ⟨2, 1⟩, ⟨3, 1⟩, ⟨4, 1⟩, ⟨5, 1⟩]) imC
    (Reachable.init 0 (by decide)) (opValid_merge (by decide) (by decide) (by decide))
    (by decide)

/-- C1 (amended): every public mutating operation except `appliedLogTo`
preserves the invariant `savedTo ≥ markerIndex - 1` (stated over `Nat` as
`markerIndex ≤ savedTo + 1`); `appliedLogTo(index)` preserves it exactly under
the additional protocol assumption `index ≤ savedTo + 1` (compaction only of
already-durable entries). -/
theorem c1_saved_watermark_preserved (im : InMemory) (op : Op) (im' : InMemory)
    (hv : opValid op) (hs : applyOp im op = some im')
    (hinv : im.markerIndex ≤ im.savedTo + 1)
    (happ : ∀ i, op = .appliedLogTo i → i ≤ im.savedTo + 1) :
    im'.markerIndex ≤ im'.savedTo + 1 := by
  cases op with
  | merge ents =>
    obtain ⟨hne, hspan, hok⟩ := hv
    obtain ⟨e0, rest, rfl, hck, hcase⟩ := merge_some_shape hs
    have he0W : e0.index < W := (allOk_bounds hok e0 (by simp)).1
    rcases hcase with ⟨-, -, rfl⟩ | ⟨-, -, rfl⟩ | ⟨hlt, existing, -, -, rfl⟩
    · exact hinv
    · exact le_wsub_one_add_one he0W
    · have hf1 : 1 ≤ e0.index := by omega
      have hw : wsub e0.index 1 = e0.index - 1 := wsub_eq_of_le hf1 he0W
      show im.markerIndex ≤ Nat.min im.savedTo (wsub e0.index 1) + 1
      rw [hw]
      show im.markerIndex ≤ min im.savedTo (e0.index - 1) + 1
      rcases Nat.le_total im.savedTo (e0.index - 1) with hmb | hmb
      · rw [min_eq_left hmb]
        exact hinv
      · rw [min_eq_right hmb]
        omega
  | savedLogTo i t =>
    rcases savedLogTo_some_shape hs with rfl | ⟨hm, rfl⟩
    · exact hinv
    · show im.markerIndex ≤ i + 1
      omega
  | appliedLogTo i =>
    rcases appliedLogTo_some_shape hs with rfl | ⟨hm, -, -, -, -, rfl⟩
    · exact hinv
    · show i ≤ im.savedTo + 1
      exact happ i rfl
  | savedSnapshotTo i =>
    have hi := Option.some.inj hs
    subst hi
    rcases savedSnapshotTo_shape im i with hsh | hsh <;> rw [hsh] <;> exact hinv
  | commitUpdate cu =>
    obtain ⟨im1, hm, hres⟩ := commitUpdate_some_shape hs
    have h1 : im1.markerIndex ≤ im1.savedTo + 1 := by
      rcases hm with hm | rfl
      · rcases savedLogTo_some_shape hm with rfl | ⟨hmk, rfl⟩
        · exact hinv
        · show im.markerIndex ≤ cu.stableLogTo + 1
          omega
      · exact hinv
    rcases hres with rfl | rfl
    · exact h1
    · rcases savedSnapshotTo_shape im1 cu.stableSnapshotTo with hsh | hsh <;> rw [hsh] <;>
        exact h1
  | restore ss =>
    have hi := Option.some.inj hs
    subst hi
    show (ss.index + 1) % W ≤ ss.index + 1
    exact Nat.mod_le _ _

/-- C1 witness: a successful `savedLogTo 2 8` on `imA` (where the invariant
holds: `markerIndex = 1 ≤ savedTo + 1 = 1`) leaves a state that still
satisfies the invariant. -/
theorem c1_witness :
    ({ imA with savedTo := 2 } : InMemory).markerIndex ≤
      ({ imA with savedTo := 2 } : InMemory).savedTo + 1 :=
  c1_saved_watermark_preserved imA (.savedLogTo 2 8) { imA with savedTo := 2 }
    (opValid_savedLogTo (by decide) (by decide)) (by decide) (by decide)
    (fun i h => nomatch h)

/-- C5: in every reachable state — that is, after every public operation
(`merge` with its contiguous non-empty input contract, `savedLogTo`,
`appliedLogTo`, `savedSnapshotTo`, `commitUpdate`, `restore`) applied to a
reachable state — a non-empty buffer starts exactly at `markerIndex` and its
indices ascend contiguously by exactly one. -/
theorem c5_marker_and_contiguity (im : InMemory) (h : Reachable im)
    (hne : im.entries ≠ []) :
    (im.entries.headD default).index = im.markerIndex ∧
    ∀ i, i < im.entries.length → (im.entries.getD i default).index = im.markerIndex + i := by
  obtain ⟨-, -, hcontig, -, -, -⟩ := reachable_wfR h
  refine ⟨?_, contigB_getD hcontig⟩
  cases hent : im.entries with
  | nil => exact absurd hent hne
  | cons x tl =>
    rw [hent] at hcontig
    simpa using (contigB_cons.mp hcontig).1

/-- C5 witness: the reachable window `imC` has first index equal to its
marker and the entry at offset 2 carries index `markerIndex + 2`. -/
theorem c5_witness :
    (imC.entries.headD default).index = imC.markerIndex ∧
    (imC.entries.getD 2 default).index = imC.markerIndex + 2 := by
  have hr : Reachable imC :=
    @Reachable.step (newInMemory 0) (.merge [⟨1, 1⟩, ⟨2, 1⟩, ⟨3, 1⟩, ⟨4, 1⟩, ⟨5, 1⟩]) imC
      (Reachable.init 0 (by decide)) (opValid_merge (by decide) (by decide) (by decide))
      (by decide)
  have h := c5_marker_and_contiguity imC hr (by decide)
  exact ⟨h.1, h.2 2 (by decide)⟩

/-- The state produced by restoring a snapshot at the maximal uint64 index. -/
def imE : InMemory :=
  { snapshot := some ⟨W - 1, 3⟩, entries := [], markerIndex := 0, savedTo := W - 1 }

/-- C10 counterexample: restoring a snapshot at index `2^64 - 1` (a legal
uint64 value) is a valid public operation and yields the reachable state
`imE` with `markerIndex = 0` and an empty buffer whose `lastIndex()` reports
`2^64 - 1` found; instantiating the claim at query index 1 would require the
buffer to be non-empty, which is false — and in `termAt` the lookup indeed
reaches the out-of-range access (`getTerm` hits its fault branch). -/
theorem c10_cex :
    Reachable imE ∧ imE.markerIndex ≤ 1 ∧ (getLastIndex imE).2 = true ∧
    1 ≤ (getLastIndex imE).1 ∧ imE.entries = [] ∧ getTerm imE 1 = none := by
  refine ⟨?_, by decide, by decide, by decide, by decide, by decide⟩
  exact @Reachable.step (newInMemory 0) (.restore ⟨W - 1, 3⟩) imE
    (Reachable.init 0 (by decide)) (opValid_restore (by decide) (by decide)) (by decide)

/-- C10 (amended): in every reachable state with `markerIndex ≥ 1` (all
states except those produced by restoring a snapshot at the maximal uint64
index), an empty buffer coexists only with no pending snapshot or with one
at exactly `markerIndex - 1`; consequently, whenever `index ≥ markerIndex`
and `lastIndex()` reports a found index at least as large, the buffer is
non-empty and the `termAt` lookup position `index - markerIndex` is in
bounds. -/
theorem c10_snapshot_inbounds (im : InMemory) (h : Reachable im)
    (hm : 1 ≤ im.markerIndex) :
    (im.entries = [] → im.snapshot = none ∨
      ∃ s, im.snapshot = some s ∧ s.index = im.markerIndex - 1) ∧
    ∀ i, im.markerIndex ≤ i → (getLastIndex im).2 = true → i ≤ (getLastIndex im).1 →
      im.entries ≠ [] ∧ wsub i im.markerIndex < im.entries.length := by
  obtain ⟨h1, h2, h3, h4, h5, h6⟩ := reachable_wfR h
  have hsnap' : im.entries = [] → im.snapshot = none ∨
      ∃ s, im.snapshot = some s ∧ s.index = im.markerIndex - 1 := by
    intro he
    rcases h6 he with hn | ⟨s, hs, hmod⟩
    · exact Or.inl hn
    · refine Or.inr ⟨s, hs, ?_⟩
      have hsW : s.index < W := (h5 s hs).1
      rcases Nat.lt_or_ge (s.index + 1) W with hlt | hge
      · rw [Nat.mod_eq_of_lt hlt] at hmod
        omega
      · have hseq : s.index + 1 = W := by omega
        rw [hseq, Nat.mod_self] at hmod
        omega
  refine ⟨hsnap', ?_⟩
  intro i hmi hfound hle
  by_cases hne : im.entries = []
  · exfalso
    unfold getLastIndex at hfound hle
    rw [hne] at hfound hle
    simp only [List.getLast?_nil] at hfound hle
    unfold getSnapshotIndex at hfound hle
    rcases hsnap' hne with hn | ⟨s, hs, hsi⟩
    · rw [hn] at hfound
      simp at hfound
    · rw [hs] at hle
      simp only at hle
      omega
  · refine ⟨hne, ?_⟩
    have hlast : (getLastIndex im).1 = im.markerIndex + im.entries.length - 1 := by
      unfold getLastIndex
      rw [getLast?_eq_getLastD hne]
      exact contigB_getLastD h3 hne
    rw [hlast] at hle
    have hlen0 : im.entries.length ≠ 0 := fun h0 => hne (List.length_eq_zero.mp h0)
    have hiW : i < W := by
      have := contig_len_le h3 h4 hne
      omega
    rw [wsub_eq_of_le hmi hiW]
    omega

/-- C10 witness: on the reachable window `imD` (marker 3, buffer `[3..5]`),
the `termAt` lookup at index 4 is in bounds. -/
theorem c10_witness : imD.entries ≠ [] ∧ wsub 4 imD.markerIndex < imD.entries.length := by
  have s1 : Reachable imC :=
    @Reachable.step (newInMemory 0) (.merge [⟨1, 1⟩, ⟨2, 1⟩, ⟨3, 1⟩, ⟨4, 1⟩, ⟨5, 1⟩]) imC
      (Reachable.init 0 (by decide)) (opValid_merge (by decide) (by decide) (by decide))
      (by decide)
  have hr : Reachable imD :=
    @Reachable.step imC (.appliedLogTo 3) imD s1 (opValid_appliedLogTo (by decide)) (by decide)
  exact (c10_snapshot_inbounds imD hr (by decide)).2 4 (by decide) (by decide) (by decide)

/-- The window produced in Go by merging an entry with index 0 into a fresh
log: `markerIndex = 0` and `savedTo` wrapped around to `2^64 - 1`. -/
def imF : InMemory :=
  { snapshot := none, entries := [⟨0, 1⟩], markerIndex := 0, savedTo := W - 1 }

/-- C2 counterexample: on the reachable window `imF`, `entriesToSave()`
returns the non-empty sequence `[⟨0,1⟩]` whose last entry has index 0, but
reporting it through `commitUpdate` is a complete no-op because the
`StableLogTo > 0` gate rejects index 0 — so `entriesToSave()` is still
non-empty immediately after, contradicting the claim. -/
theorem c2_cex :
    Reachable imF ∧ entriesToSave imF = [⟨0, 1⟩] ∧
    ((entriesToSave imF).getLastD default).index = 0 ∧
    commitUpdate imF { stableLogTo := 0, stableLogTerm := 1, stableSnapshotTo := 0 } =
      some imF ∧
    entriesToSave imF ≠ [] := by
  refine ⟨?_, by decide, by decide, by decide, by decide⟩
  exact @Reachable.step (newInMemory 0) (.merge [⟨0, 1⟩]) imF (Reachable.init 0 (by decide))
    (opValid_merge (by decide) (by decide) (by decide)) (by decide)

/-- C2 (amended): on a well-formed window with `markerIndex ≥ 1` (so every
buffered index is positive and the `StableLogTo > 0` gate can fire), if
`entriesToSave()` returns a non-empty sequence, then reporting the last
returned entry's index and term through `commitUpdate` advances `savedTo` to
that index and leaves `entriesToSave()` empty immediately after. -/
theorem c2_save_roundtrip (im : InMemory) (hwf : wfB im = true)
    (hm : 1 ≤ im.markerIndex) (hne : entriesToSave im ≠ []) :
    commitUpdate im
      { stableLogTo := ((entriesToSave im).getLastD default).index,
        stableLogTerm := ((entriesToSave im).getLastD default).term,
        stableSnapshotTo := 0 } =
      some { im with savedTo := ((entriesToSave im).getLastD default).index } ∧
    entriesToSave { im with savedTo := ((entriesToSave im).getLastD default).index } = [] := by
  obtain ⟨hWlen, hsav, hcontig, hok⟩ := wfB_spec hwf
  have hidxlt : im.savedTo + 1 < W := by
    by_contra hcon
    apply hne
    unfold entriesToSave
    rw [show im.savedTo + 1 = W by omega, Nat.mod_self,
      wsub_eq_of_lt (by omega) (by omega), if_pos (by omega)]
  have hmod : (im.savedTo + 1) % W = im.savedTo + 1 := Nat.mod_eq_of_lt hidxlt
  have hmle : im.markerIndex ≤ im.savedTo + 1 := by
    by_contra hcon
    apply hne
    unfold entriesToSave
    rw [hmod, wsub_eq_of_lt (by omega) (by omega), if_pos (by omega)]
  have hwk : wsub ((im.savedTo + 1) % W) im.markerIndex =
      im.savedTo + 1 - im.markerIndex := by
    rw [hmod]
    exact wsub_eq_of_le hmle hidxlt
  have hkle : im.savedTo + 1 - im.markerIndex ≤ im.entries.length := by
    by_contra hcon
    apply hne
    unfold entriesToSave
    rw [hwk, if_pos (by omega)]
  have hes : entriesToSave im = im.entries.drop (im.savedTo + 1 - im.markerIndex) := by
    unfold entriesToSave
    rw [hwk, if_neg (by omega)]
  have hklt : im.savedTo + 1 - im.markerIndex < im.entries.length := by
    by_contra hcon
    apply hne
    rw [hes]
    exact List.drop_eq_nil_iff.mpr (by omega)
  have hneent : im.entries ≠ [] := by
    intro h0
    rw [h0] at hklt
    simp at hklt
  have hlen0 : im.entries.length ≠ 0 := fun h0 => hneent (List.length_eq_zero.mp h0)
  have hgld : (entriesToSave im).getLastD default = im.entries.getLastD default := by
    rw [hes]
    exact getLastD_drop hklt default
  have hL : ((entriesToSave im).getLastD default).index =
      im.markerIndex + im.entries.length - 1 := by
    rw [hgld]
    exact contigB_getLastD hcontig hneent
  have hT : ((entriesToSave im).getLastD default).term =
      (im.entries.getD (im.entries.length - 1) default).term := by
    rw [hgld, getLastD_eq_getD hneent]
  rw [hL, hT]
  have hslt : savedLogTo im (im.markerIndex + im.entries.length - 1)
      (im.entries.getD (im.entries.length - 1) default).term =
      some { im with savedTo := im.markerIndex + im.entries.length - 1 } := by
    unfold savedLogTo
    rw [if_neg (by omega), if_neg hlen0,
      if_neg (by rw [contigB_getLastD hcontig hneent]; omega),
      wsub_eq_of_le (by omega) (by omega),
      show im.markerIndex + im.entries.length - 1 - im.markerIndex =
        im.entries.length - 1 by omega,
      getD_eq_get? (by omega)]
    show (if (im.entries.getD (im.entries.length - 1) default).term ≠
        (im.entries.getD (im.entries.length - 1) default).term then some im
      else some { im with savedTo := im.markerIndex + im.entries.length - 1 }) =
      some { im with savedTo := im.markerIndex + im.entries.length - 1 }
    rw [if_neg (fun hn => hn rfl)]
  constructor
  · unfold commitUpdate
    rw [if_pos (show 0 < im.markerIndex + im.entries.length - 1 by omega), hslt]
    show some (if (0 : Nat) > 0 then
        savedSnapshotTo { im with savedTo := im.markerIndex + im.entries.length - 1 } 0
      else { im with savedTo := im.markerIndex + im.entries.length - 1 }) =
      some { im with savedTo := im.markerIndex + im.entries.length - 1 }
    rw [if_neg (by omega)]
  · show (if wsub ((im.markerIndex + im.entries.length - 1 + 1) % W) im.markerIndex >
        im.entries.length then ([] : List Entry)
      else im.entries.drop
        (wsub ((im.markerIndex + im.entries.length - 1 + 1) % W) im.markerIndex)) = []
    rw [show im.markerIndex + im.entries.length - 1 + 1 =
        im.markerIndex + im.entries.length by omega,
      Nat.mod_eq_of_lt hWlen, wsub_eq_of_le (by omega) (by omega),
      show im.markerIndex + im.entries.length - im.markerIndex = im.entries.length by omega,
      if_neg (by omega)]
    exact List.drop_length _

/-- C2 witness: on `imA` (`savedTo = 0`), `entriesToSave()` returns both
buffered entries; reporting the last one (index 2, term 8) through
`commitUpdate` advances `savedTo` to 2 and empties `entriesToSave()`. -/
theorem c2_witness :
    commitUpdate imA { stableLogTo := 2, stableLogTerm := 8, stableSnapshotTo := 0 } =
      some { imA with savedTo := 2 } ∧
    entriesToSave { imA with savedTo := 2 } = [] := by
  have h := c2_save_roundtrip imA (by decide) (by decide) (by decide)
  exact ⟨h.1, h.2⟩

end InMem
